import Mathlib

/-!
# Verification of the parallel graph-sum threadpool

Shallow embedding of `src/os_threadpool.c` and `src/parallel.c`.

Key modelling observation: in `parallel.c`, the entire body of `execute`
(the task action) and of `process_node` runs while holding `graph_mutex`,
and the queue operations are each atomic under the pool mutex.  A run of
the program is therefore a sequence of atomic events; the only relevant
events are task executions, each of which removes one pending task and
runs `execute` on it.  We model the system as a transition relation that
executes an arbitrary pending task, which subsumes every worker count and
every scheduling interleaving (a worker that has dequeued a task but not
yet run it is modelled by leaving the task pending until its execution
event).
-/

namespace ParallelGraph

/-- Modelled from the spec: the per-node visitation status enum of the
missing `os_graph.h` header (`NOT_VISITED`, `PROCESSING` — the spec's
CLAIMED — and `DONE`), as used by `parallel.c`. -/
inductive Visit where
  | NOT_VISITED
  | PROCESSING
  | DONE
deriving DecidableEq, Repr

/-- Modelled from the spec: the immutable adjacency structure produced by
the missing `os_graph.c`/`os_graph.h` collaborator: a node count, a
per-node integer weight (`node->info`) and a per-node neighbour index
list (`node->neighbours`). -/
structure Graph where
  n : Nat
  info : Nat → Int
  neighbours : Nat → List Nat

/-- Well-formedness of the graph structure: every neighbour index of an
in-range node is in range.  The graph-construction collaborator is
assumed to produce such a structure. -/
def Graph.WF (g : Graph) : Prop :=
  ∀ i, i < g.n → ∀ j ∈ g.neighbours i, j < g.n

/-- Two's-complement wrap of a mathematical integer into the range of a
32-bit C `int`, which is the arithmetic performed by `sum += node->info`
on the `static int sum` of `parallel.c`. -/
def wrap32 (x : Int) : Int :=
  (x + 2 ^ 31) % 2 ^ 32 - 2 ^ 31

/-- The whole-system state: the graph-side mutable state of `parallel.c`
(`visited`, `sum`) together with the pool queue of `os_threadpool.c`
(pending task arguments, i.e. node indices, in FIFO order) and its
`tasks_added` counter.  `history` is a ghost log of every node index for
which a task was ever created and enqueued, and `destroyed` is a ghost
count of the `destroy_task` calls made by workers after executing a
task. -/
structure SysState where
  visited : Nat → Visit
  sum : Int
  queue : List Nat
  tasks_added : Nat
  history : List Nat
  destroyed : Nat

/-- Creating a task for node `i` (`create_task` + `enqueue_task`):
append to the tail of the queue, bump `tasks_added`, log the creation. -/
def enqueueNode (i : Nat) (st : SysState) : SysState :=
  { st with
    queue := st.queue ++ [i]
    tasks_added := st.tasks_added + 1
    history := st.history ++ [i] }

/-- The neighbour loop of `execute` in `parallel.c`: for each neighbour in
order, if it is `NOT_VISITED`, mark it `PROCESSING` and enqueue a task
for it.  Later duplicates of an already-claimed neighbour see the updated
status. -/
def claimNeighbours (g : Graph) : List Nat → SysState → SysState
  | [], st => st
  | v :: rest, st =>
    if st.visited v = Visit.NOT_VISITED then
      claimNeighbours g rest
        (enqueueNode v { st with visited := Function.update st.visited v Visit.PROCESSING })
    else
      claimNeighbours g rest st

/-- The task action `execute` of `parallel.c`: under the graph lock, if
the node is `PROCESSING` add its weight to `sum` (32-bit arithmetic),
mark it `DONE` and claim-and-enqueue its unvisited neighbours; otherwise
do nothing. -/
def execute (g : Graph) (idx : Nat) (st : SysState) : SysState :=
  if st.visited idx = Visit.PROCESSING then
    claimNeighbours g (g.neighbours idx)
      { st with
        sum := wrap32 (st.sum + g.info idx)
        visited := Function.update st.visited idx Visit.DONE }
  else
    st

/-- `process_node` of `parallel.c`: unconditionally set the node's status
to `PROCESSING` and create and enqueue a task for it. -/
def process_node (idx : Nat) (st : SysState) : SysState :=
  enqueueNode idx { st with visited := Function.update st.visited idx Visit.PROCESSING }

/-- The state at program start: all nodes `NOT_VISITED`, zero sum, empty
queue, counter zero. -/
def initState : SysState :=
  { visited := fun _ => Visit.NOT_VISITED
    sum := 0
    queue := []
    tasks_added := 0
    history := []
    destroyed := 0 }

/-- The state after `main` calls `process_node(0)`. -/
def seeded : SysState :=
  process_node 0 initState

/-- One worker turn on task `i`: remove it from the queue (the position
the worker dequeued it from is irrelevant once executions are serialized
by the graph lock), run `execute`, then `destroy_task`. -/
def stepOn (g : Graph) (i : Nat) (st : SysState) : SysState :=
  { execute g i { st with queue := st.queue.erase i } with destroyed := st.destroyed + 1 }

/-- The system transition relation: some worker executes some pending
task.  Quantifying over the choice of pending task covers every worker
count and interleaving, since the body of `execute` is atomic under the
graph lock. -/
inductive Step (g : Graph) : SysState → SysState → Prop
  | exec (i : Nat) (st : SysState) (h : i ∈ st.queue) : Step g st (stepOn g i st)

/-- All states reachable from `st0` by worker turns. -/
def Steps (g : Graph) (st0 st : SysState) : Prop :=
  Relation.ReflTransGen (Step g) st0 st

/-- The single-worker scheduler: repeatedly execute the head of the
queue.  This is the deterministic behaviour of a one-thread pool
(`dequeue_task` returns the head). -/
def runPool (g : Graph) : Nat → SysState → SysState
  | 0, st => st
  | fuel + 1, st =>
    match st.queue with
    | [] => st
    | i :: _ => runPool g fuel (stepOn g i st)

/-- Reachability in the graph along neighbour edges. -/
inductive Reach (g : Graph) (s : Nat) : Nat → Prop
  | refl : Reach g s s
  | step {u v : Nat} : Reach g s u → v ∈ g.neighbours u → Reach g s v

/-- One round of breadth-first closure: add all neighbours of the
current set. -/
def reachStep (g : Graph) (s : Finset Nat) : Finset Nat :=
  s ∪ s.biUnion fun v => (g.neighbours v).toFinset

/-- The set of nodes reachable from node 0, computed by iterating the
closure `g.n` times (enough to stabilize on a well-formed graph). -/
def reachSet (g : Graph) : Finset Nat :=
  (reachStep g)^[g.n] {0}

/-- Sum of the weights of the `DONE` nodes. -/
def doneSum (g : Graph) (st : SysState) : Int :=
  ((Finset.range g.n).filter fun v => st.visited v = Visit.DONE).sum g.info

/-- Number of in-range `NOT_VISITED` nodes; together with the queue
length this is the termination measure. -/
def countNV (g : Graph) (st : SysState) : Nat :=
  ((Finset.range g.n).filter fun v => st.visited v = Visit.NOT_VISITED).card

/-- Termination measure: each worker turn strictly decreases it. -/
def measure (g : Graph) (st : SysState) : Nat :=
  countNV g st + st.queue.length

/-- The sublist of `l` whose members are `NOT_VISITED` under `vis`, each
kept once (a later duplicate sees the updated status): exactly the nodes
`claimNeighbours` enqueues, in order. -/
def newClaims (vis : Nat → Visit) : List Nat → List Nat
  | [] => []
  | v :: rest =>
    if vis v = Visit.NOT_VISITED then
      v :: newClaims (Function.update vis v Visit.PROCESSING) rest
    else
      newClaims vis rest

/-- `destroy_threadpool` applied to the traversal's pool: drain the
queue, calling `destroy_task` on every remaining task.  Every traversal
task is created with destructor `free`, so each remaining task accounts
for one destructor invocation; the returned number counts them. -/
def destroyPool (st : SysState) : SysState × Nat :=
  ({ st with queue := [] }, st.queue.length)

namespace TPool

/-- The task-queue state of `os_threadpool.c`: the intrusive list of
pending tasks (front first) and the atomic `tasks_added` counter, both
guarded by the pool mutex.  `α` is the task payload type. -/
structure Pool (α : Type) where
  queue : List α
  tasks_added : Nat

/-- Modelled from the spec: `list_add_tail` of the missing `os_list.h`;
the spec states that `enqueue` appends the task at the tail. -/
def list_add_tail (l : List α) (t : α) : List α :=
  l ++ [t]

/-- Modelled from the spec: removal of the front element
(`list_entry(tp->head.next)` followed by `list_del`) using the missing
`os_list.h` helpers; the spec states that `dequeue` removes the head. -/
def list_remove_head : List α → Option α × List α
  | [] => (none, [])
  | t :: rest => (some t, rest)

/-- `enqueue_task` of `os_threadpool.c`: under the pool mutex, append the
task at the tail, increment `tasks_added`, signal a waiter. -/
def enqueue_task (p : Pool α) (t : α) : Pool α :=
  { queue := list_add_tail p.queue t, tasks_added := p.tasks_added + 1 }

/-- The guard of the wait loop in `dequeue_task`:
`queue_is_empty(tp) && atomic_load(&tp->tasks_added) == 0`.  A worker
blocks on the condition variable exactly while this holds. -/
def dequeue_wait_cond (p : Pool α) : Bool :=
  p.queue.isEmpty && p.tasks_added == 0

/-- The body of `dequeue_task` once past the wait loop: if the queue is
non-empty remove and return the head, otherwise return NULL (`none`)
immediately. -/
def dequeue_task (p : Pool α) : Option α × Pool α :=
  match list_remove_head p.queue with
  | (r, q) => (r, { p with queue := q })

/-- The pool state left behind by one `dequeue_task` call. -/
def dequeueState (p : Pool α) : Pool α :=
  (dequeue_task p).2

/-- The task returned by the `k`-th `dequeue_task` call (0-based) of a
single consumer that only dequeues. -/
def dequeuedAt (p : Pool α) (k : Nat) : Option α :=
  (dequeue_task (dequeueState^[k] p)).1

/-- `destroy_task` of `os_threadpool.c`, counting destructor
invocations: the `destroy_arg` callback is invoked exactly when it is
present (non-NULL). -/
def destroy_task (hasD : α → Bool) (t : α) : Nat :=
  if hasD t then 1 else 0

/-- `destroy_threadpool` of `os_threadpool.c`: walk the remaining queue
with `list_for_each_safe`, unlink every task and `destroy_task` it.
Returns the drained pool and the number of destructor invocations,
parameterized by which tasks carry a destructor. -/
def destroy_threadpool (hasD : α → Bool) (p : Pool α) : Pool α × Nat :=
  ({ p with queue := [] }, (p.queue.map (destroy_task hasD)).sum)

end TPool

/-- The two mutexes of the program: the graph mutex of `parallel.c` and
the pool mutex of `os_threadpool.c`. -/
inductive Lk where
  | G
  | Q
deriving DecidableEq

/-- A lock event: acquiring or releasing one of the two mutexes. -/
inductive LockEv where
  | acq (l : Lk)
  | rel (l : Lk)
deriving DecidableEq

/-- Lock events of one `enqueue_task` call. -/
def enqueueLockTrace : List LockEv :=
  [LockEv.acq Lk.Q, LockEv.rel Lk.Q]

/-- Lock events of one `dequeue_task` call (`pthread_cond_wait` releases
and reacquires the already-held pool mutex, so the trace seen from
outside is acquire then release). -/
def dequeueLockTrace : List LockEv :=
  [LockEv.acq Lk.Q, LockEv.rel Lk.Q]

/-- Lock events of the broadcast in `wait_for_completion`. -/
def waitLockTrace : List LockEv :=
  [LockEv.acq Lk.Q, LockEv.rel Lk.Q]

/-- Lock events of one `execute` call that performs `k` enqueues: take
the graph mutex, then for each enqueued task enter and leave the pool
mutex inside `enqueue_task`, then release the graph mutex. -/
def executeLockTrace (k : Nat) : List LockEv :=
  LockEv.acq Lk.G :: (List.replicate k enqueueLockTrace).flatten ++ [LockEv.rel Lk.G]

/-- Lock events of one `process_node` call: graph mutex around a single
enqueue. -/
def processNodeLockTrace : List LockEv :=
  LockEv.acq Lk.G :: enqueueLockTrace ++ [LockEv.rel Lk.G]

/-- Scans a lock trace with the current held-set (`hg` = graph mutex
held, `hq` = pool mutex held) and checks that the graph mutex is never
acquired while the pool mutex is held. -/
def goodLockOrder : List LockEv → Bool → Bool → Bool
  | [], _, _ => true
  | LockEv.acq Lk.G :: rest, _, hq => !hq && goodLockOrder rest true hq
  | LockEv.acq Lk.Q :: rest, hg, _ => goodLockOrder rest hg true
  | LockEv.rel Lk.G :: rest, _, hq => goodLockOrder rest false hq
  | LockEv.rel Lk.Q :: rest, hg, _ => goodLockOrder rest hg false

/-- Scans a lock trace and checks that the pool mutex is only ever
acquired while the graph mutex is held. -/
def qOnlyUnderG : List LockEv → Bool → Bool
  | [], _ => true
  | LockEv.acq Lk.Q :: rest, hg => hg && qOnlyUnderG rest hg
  | LockEv.acq Lk.G :: rest, _ => qOnlyUnderG rest true
  | LockEv.rel Lk.G :: rest, _ => qOnlyUnderG rest false
  | LockEv.rel Lk.Q :: rest, hg => qOnlyUnderG rest hg

/-- The two-node cycle of the spec's end-to-end scenario: nodes A = 0
(weight 1) and B = 1 (weight 2) with edges A↔B. -/
def cycleGraph : Graph :=
  { n := 2
    info := fun v => if v = 0 then 1 else 2
    neighbours := fun v => if v = 0 then [1] else if v = 1 then [0] else [] }

/-- A two-node chain whose total weight 2^31 overflows a 32-bit `int`:
node 0 has weight 2^31 - 1 (`INT_MAX`) and an edge to node 1 of
weight 1. -/
def ovGraph : Graph :=
  { n := 2
    info := fun v => if v = 0 then 2 ^ 31 - 1 else 1
    neighbours := fun v => if v = 0 then [1] else [] }

/-- A concrete state whose every node is already `DONE`, used to
exercise the no-op branch of `execute`. -/
def allDoneState : SysState :=
  { visited := fun _ => Visit.DONE
    sum := 5
    queue := [0]
    tasks_added := 3
    history := [0]
    destroyed := 2 }

/-- The system invariant, established by the seed and preserved by every
worker turn.  It packages: the queue holds exactly the `PROCESSING`
(claimed) nodes, once each; the accumulator is the wrapped sum of the
`DONE` weights; every neighbour of a `DONE` node has been claimed; every
claimed node is reachable from the seed; the ghost history of task
creations is duplicate-free and matches the claimed nodes; and the
created/destroyed/pending task counts balance. -/
structure Inv (g : Graph) (st : SysState) : Prop where
  queue_range : ∀ j ∈ st.queue, j < g.n
  queue_nodup : st.queue.Nodup
  processing_iff : ∀ j, st.visited j = Visit.PROCESSING ↔ j ∈ st.queue
  range_only : ∀ v, g.n ≤ v → st.visited v = Visit.NOT_VISITED
  sum_eq : st.sum = wrap32 (doneSum g st)
  done_succ : ∀ v, v < g.n → st.visited v = Visit.DONE →
    ∀ u ∈ g.neighbours v, st.visited u ≠ Visit.NOT_VISITED
  reach : ∀ v, st.visited v ≠ Visit.NOT_VISITED → Reach g 0 v
  seed_claimed : st.visited 0 ≠ Visit.NOT_VISITED
  hist_iff : ∀ j, j ∈ st.history ↔ st.visited j ≠ Visit.NOT_VISITED
  hist_nodup : st.history.Nodup
  created_eq : st.history.length = st.destroyed + st.queue.length
  added_eq : st.tasks_added = st.history.length

/-! ## Characterization of the neighbour-claiming loop -/

theorem claimNeighbours_sum (g : Graph) (l : List Nat) (st : SysState) :
    (claimNeighbours g l st).sum = st.sum := by
  induction l generalizing st with
  | nil => rfl
  | cons w rest ih =>
    by_cases h : st.visited w = Visit.NOT_VISITED
    · simp [claimNeighbours, h, ih, enqueueNode]
    · simp [claimNeighbours, h, ih]

theorem claimNeighbours_destroyed (g : Graph) (l : List Nat) (st : SysState) :
    (claimNeighbours g l st).destroyed = st.destroyed := by
  induction l generalizing st with
  | nil => rfl
  | cons w rest ih =>
    by_cases h : st.visited w = Visit.NOT_VISITED
    · simp [claimNeighbours, h, ih, enqueueNode]
    · simp [claimNeighbours, h, ih]

theorem claimNeighbours_visited (g : Graph) (l : List Nat) (st : SysState) (v : Nat) :
    (claimNeighbours g l st).visited v =
      if st.visited v = Visit.NOT_VISITED ∧ v ∈ l then Visit.PROCESSING
      else st.visited v := by
  induction l generalizing st with
  | nil => simp [claimNeighbours]
  | cons w rest ih =>
    by_cases h : st.visited w = Visit.NOT_VISITED
    · rw [claimNeighbours, if_pos h, ih]
      by_cases hv : v = w
      · subst hv
        simp [enqueueNode, Function.update_same, h]
      · simp only [enqueueNode]
        rw [Function.update_noteq hv]
        simp [hv]
    · rw [claimNeighbours, if_neg h, ih]
      by_cases hv : v = w
      · subst hv
        simp [h]
      · simp [hv]

theorem claimNeighbours_queue (g : Graph) (l : List Nat) (st : SysState) :
    (claimNeighbours g l st).queue = st.queue ++ newClaims st.visited l := by
  induction l generalizing st with
  | nil => simp [claimNeighbours, newClaims]
  | cons w rest ih =>
    by_cases h : st.visited w = Visit.NOT_VISITED
    · rw [claimNeighbours, if_pos h, ih, newClaims, if_pos h]
      simp [enqueueNode]
    · rw [claimNeighbours, if_neg h, ih, newClaims, if_neg h]

theorem claimNeighbours_history (g : Graph) (l : List Nat) (st : SysState) :
    (claimNeighbours g l st).history = st.history ++ newClaims st.visited l := by
  induction l generalizing st with
  | nil => simp [claimNeighbours, newClaims]
  | cons w rest ih =>
    by_cases h : st.visited w = Visit.NOT_VISITED
    · rw [claimNeighbours, if_pos h, ih, newClaims, if_pos h]
      simp [enqueueNode]
    · rw [claimNeighbours, if_neg h, ih, newClaims, if_neg h]

theorem claimNeighbours_tasks_added (g : Graph) (l : List Nat) (st : SysState) :
    (claimNeighbours g l st).tasks_added =
      st.tasks_added + (newClaims st.visited l).length := by
  induction l generalizing st with
  | nil => simp [claimNeighbours, newClaims]
  | cons w rest ih =>
    by_cases h : st.visited w = Visit.NOT_VISITED
    · rw [claimNeighbours, if_pos h, ih, newClaims, if_pos h]
      simp [enqueueNode]
      omega
    · rw [claimNeighbours, if_neg h, ih, newClaims, if_neg h]

theorem mem_newClaims (vis : Nat → Visit) (l : List Nat) (v : Nat) :
    v ∈ newClaims vis l ↔ vis v = Visit.NOT_VISITED ∧ v ∈ l := by
  induction l generalizing vis with
  | nil => simp [newClaims]
  | cons w rest ih =>
    by_cases h : vis w = Visit.NOT_VISITED
    · rw [newClaims, if_pos h]
      by_cases hv : v = w
      · subst hv
        simp [h]
      · rw [List.mem_cons]
        simp only [hv, false_or, ih]
        rw [Function.update_noteq hv]
        simp [hv]
    · rw [newClaims, if_neg h]
      by_cases hv : v = w
      · subst hv
        simp [h, ih]
      · simp [ih, hv]

theorem newClaims_nodup (vis : Nat → Visit) (l : List Nat) :
    (newClaims vis l).Nodup := by
  induction l generalizing vis with
  | nil => simp [newClaims]
  | cons w rest ih =>
    by_cases h : vis w = Visit.NOT_VISITED
    · rw [newClaims, if_pos h]
      refine List.nodup_cons.2 ⟨?_, ih _⟩
      intro hmem
      rcases (mem_newClaims _ _ _).1 hmem with ⟨hupd, _⟩
      rw [Function.update_same] at hupd
      exact absurd hupd (by simp)
    · rw [newClaims, if_neg h]
      exact ih vis

/-! ## Arithmetic of the 32-bit accumulator -/

theorem wrap32_add_left (a b : Int) : wrap32 (wrap32 a + b) = wrap32 (a + b) := by
  unfold wrap32
  omega

theorem wrap32_zero : wrap32 0 = 0 := by
  unfold wrap32
  norm_num

theorem wrap32_bounds (x : Int) : -2 ^ 31 ≤ wrap32 x ∧ wrap32 x < 2 ^ 31 := by
  unfold wrap32
  omega

theorem wrap32_emod (x : Int) : wrap32 x % 2 ^ 32 = x % 2 ^ 32 := by
  unfold wrap32
  omega

theorem wrap32_eq_self (x : Int) (h1 : -2 ^ 31 ≤ x) (h2 : x < 2 ^ 31) : wrap32 x = x := by
  unfold wrap32
  omega

/-! ## The invariant holds after seeding -/

theorem seeded_visited (v : Nat) :
    seeded.visited v = if v = 0 then Visit.PROCESSING else Visit.NOT_VISITED := by
  by_cases hv : v = 0
  · subst hv
    simp [seeded, process_node, enqueueNode, initState, Function.update_same]
  · simp only [seeded, process_node, enqueueNode, initState]
    rw [Function.update_noteq hv]
    simp [hv]

theorem seeded_queue : seeded.queue = [0] := rfl

theorem seeded_sum : seeded.sum = 0 := rfl

theorem seeded_history : seeded.history = [0] := rfl

theorem seeded_destroyed : seeded.destroyed = 0 := rfl

theorem seeded_tasks_added : seeded.tasks_added = 1 := rfl

theorem doneSum_seeded (g : Graph) : doneSum g seeded = 0 := by
  unfold doneSum
  rw [Finset.filter_false_of_mem, Finset.sum_empty]
  intro v _
  rw [seeded_visited]
  by_cases hv : v = 0 <;> simp [hv]

theorem inv_seeded (g : Graph) (hn : 0 < g.n) : Inv g seeded := by
  constructor
  · intro j hj
    rw [seeded_queue, List.mem_singleton] at hj
    omega
  · rw [seeded_queue]
    simp
  · intro j
    rw [seeded_queue, seeded_visited, List.mem_singleton]
    by_cases hj : j = 0 <;> simp [hj]
  · intro v hv
    rw [seeded_visited, if_neg (by omega)]
  · rw [seeded_sum, doneSum_seeded, wrap32_zero]
  · intro v _ hv
    rw [seeded_visited] at hv
    by_cases h0 : v = 0 <;> simp [h0] at hv
  · intro v hv
    rw [seeded_visited] at hv
    by_cases h0 : v = 0
    · subst h0
      exact Reach.refl
    · simp [h0] at hv
  · rw [seeded_visited, if_pos rfl]
    simp
  · intro j
    rw [seeded_history, seeded_visited, List.mem_singleton]
    by_cases hj : j = 0 <;> simp [hj]
  · rw [seeded_history]
    simp
  · rw [seeded_history, seeded_destroyed, seeded_queue]
    simp
  · rw [seeded_tasks_added, seeded_history]
    simp

/-! ## Characterization of a worker turn -/

theorem stepOn_destroyed (g : Graph) (i : Nat) (st : SysState) :
    (stepOn g i st).destroyed = st.destroyed + 1 := rfl

theorem stepOn_not_processing (g : Graph) (i : Nat) (st : SysState)
    (h : st.visited i ≠ Visit.PROCESSING) :
    stepOn g i st = { st with queue := st.queue.erase i, destroyed := st.destroyed + 1 } := by
  simp [stepOn, execute, h]

theorem stepOn_queue (g : Graph) (i : Nat) (st : SysState)
    (hP : st.visited i = Visit.PROCESSING) :
    (stepOn g i st).queue =
      st.queue.erase i ++
        newClaims (Function.update st.visited i Visit.DONE) (g.neighbours i) := by
  simp [stepOn, execute, hP, claimNeighbours_queue]

theorem stepOn_history (g : Graph) (i : Nat) (st : SysState)
    (hP : st.visited i = Visit.PROCESSING) :
    (stepOn g i st).history =
      st.history ++
        newClaims (Function.update st.visited i Visit.DONE) (g.neighbours i) := by
  simp [stepOn, execute, hP, claimNeighbours_history]

theorem stepOn_sum (g : Graph) (i : Nat) (st : SysState)
    (hP : st.visited i = Visit.PROCESSING) :
    (stepOn g i st).sum = wrap32 (st.sum + g.info i) := by
  simp [stepOn, execute, hP, claimNeighbours_sum]

theorem stepOn_tasks_added (g : Graph) (i : Nat) (st : SysState)
    (hP : st.visited i = Visit.PROCESSING) :
    (stepOn g i st).tasks_added =
      st.tasks_added +
        (newClaims (Function.update st.visited i Visit.DONE) (g.neighbours i)).length := by
  simp [stepOn, execute, hP, claimNeighbours_tasks_added]

theorem stepOn_visited (g : Graph) (i : Nat) (st : SysState)
    (hP : st.visited i = Visit.PROCESSING) (v : Nat) :
    (stepOn g i st).visited v =
      if Function.update st.visited i Visit.DONE v = Visit.NOT_VISITED ∧ v ∈ g.neighbours i
      then Visit.PROCESSING
      else Function.update st.visited i Visit.DONE v := by
  simp only [stepOn, execute]
  rw [if_pos hP]
  exact claimNeighbours_visited _ _ _ _

theorem stepOn_visited_self (g : Graph) (i : Nat) (st : SysState)
    (hP : st.visited i = Visit.PROCESSING) :
    (stepOn g i st).visited i = Visit.DONE := by
  rw [stepOn_visited g i st hP i, Function.update_same]
  simp

theorem stepOn_visited_ne (g : Graph) (i : Nat) (st : SysState)
    (hP : st.visited i = Visit.PROCESSING) (v : Nat) (hv : v ≠ i) :
    (stepOn g i st).visited v =
      if st.visited v = Visit.NOT_VISITED ∧ v ∈ g.neighbours i then Visit.PROCESSING
      else st.visited v := by
  rw [stepOn_visited g i st hP v, Function.update_noteq hv]

theorem mem_stepClaims (g : Graph) (i : Nat) (st : SysState) (v : Nat) :
    v ∈ newClaims (Function.update st.visited i Visit.DONE) (g.neighbours i) ↔
      v ≠ i ∧ st.visited v = Visit.NOT_VISITED ∧ v ∈ g.neighbours i := by
  rw [mem_newClaims]
  by_cases hv : v = i
  · subst hv
    rw [Function.update_same]
    simp
  · rw [Function.update_noteq hv]
    simp [hv]

theorem doneSum_stepOn (g : Graph) (i : Nat) (st : SysState)
    (hP : st.visited i = Visit.PROCESSING) (hin : i < g.n) :
    doneSum g (stepOn g i st) = doneSum g st + g.info i := by
  have hvis : ∀ v, (stepOn g i st).visited v = Visit.DONE ↔
      (v = i ∨ st.visited v = Visit.DONE) := by
    intro v
    by_cases hv : v = i
    · subst hv
      rw [stepOn_visited_self g v st hP]
      simp
    · rw [stepOn_visited_ne g i st hP v hv]
      by_cases hc : st.visited v = Visit.NOT_VISITED ∧ v ∈ g.neighbours i
      · rw [if_pos hc]
        simp only [hv, false_or]
        constructor
        · intro h
          exact absurd h (by simp)
        · intro h
          rw [hc.1] at h
          exact absurd h (by simp)
      · rw [if_neg hc]
        simp [hv]
  have hfil : (Finset.range g.n).filter (fun v => (stepOn g i st).visited v = Visit.DONE) =
      insert i ((Finset.range g.n).filter fun v => st.visited v = Visit.DONE) := by
    ext v
    simp only [Finset.mem_filter, Finset.mem_insert, Finset.mem_range, hvis]
    constructor
    · rintro ⟨hr, rfl | hd⟩
      · exact Or.inl rfl
      · exact Or.inr ⟨hr, hd⟩
    · rintro (rfl | ⟨hr, hd⟩)
      · exact ⟨hin, Or.inl rfl⟩
      · exact ⟨hr, Or.inr hd⟩
  have hnot : i ∉ (Finset.range g.n).filter fun v => st.visited v = Visit.DONE := by
    simp [Finset.mem_filter, hP]
  unfold doneSum
  rw [hfil, Finset.sum_insert hnot]
  ring

theorem inv_step (g : Graph) (hwf : g.WF) (st st' : SysState)
    (hinv : Inv g st) (hstep : Step g st st') : Inv g st' := by
  rcases hstep with ⟨i, st, hi⟩
  have hP : st.visited i = Visit.PROCESSING := (hinv.processing_iff i).2 hi
  have hin : i < g.n := hinv.queue_range i hi
  have hncmem : ∀ v, v ∈ newClaims (Function.update st.visited i Visit.DONE) (g.neighbours i) ↔
      v ≠ i ∧ st.visited v = Visit.NOT_VISITED ∧ v ∈ g.neighbours i :=
    mem_stepClaims g i st
  have hncnd : (newClaims (Function.update st.visited i Visit.DONE) (g.neighbours i)).Nodup :=
    newClaims_nodup _ _
  have hncrange : ∀ v ∈ newClaims (Function.update st.visited i Visit.DONE) (g.neighbours i),
      v < g.n := by
    intro v hv
    exact hwf i hin v ((hncmem v).1 hv).2.2
  constructor
  case queue_range =>
    rw [stepOn_queue g i st hP]
    intro j hj
    rcases List.mem_append.1 hj with hj | hj
    · exact hinv.queue_range j (List.mem_of_mem_erase hj)
    · exact hncrange j hj
  case queue_nodup =>
    rw [stepOn_queue g i st hP]
    refine List.Nodup.append (hinv.queue_nodup.erase i) hncnd ?_
    intro a ha hb
    have h1 : st.visited a = Visit.PROCESSING :=
      (hinv.processing_iff a).2 (List.mem_of_mem_erase ha)
    have h2 : st.visited a = Visit.NOT_VISITED := ((hncmem a).1 hb).2.1
    rw [h1] at h2
    exact absurd h2 (by simp)
  case processing_iff =>
    intro j
    rw [stepOn_queue g i st hP, List.mem_append]
    by_cases hj : j = i
    · subst hj
      rw [stepOn_visited_self g j st hP]
      constructor
      · intro h
        exact absurd h (by simp)
      · rintro (h | h)
        · exact absurd ((hinv.queue_nodup.mem_erase_iff).1 h).1 (by simp)
        · exact absurd ((hncmem j).1 h).1 (by simp)
    · rw [stepOn_visited_ne g i st hP j hj]
      by_cases hc : st.visited j = Visit.NOT_VISITED ∧ j ∈ g.neighbours i
      · rw [if_pos hc]
        constructor
        · intro _
          exact Or.inr ((hncmem j).2 ⟨hj, ⟨hc.1, hc.2⟩⟩)
        · intro _
          rfl
      · rw [if_neg hc]
        rw [hinv.processing_iff j, List.mem_erase_of_ne hj]
        constructor
        · exact Or.inl
        · rintro (h | h)
          · exact h
          · exact absurd ⟨((hncmem j).1 h).2.1, ((hncmem j).1 h).2.2⟩ hc
  case range_only =>
    intro v hv
    have hvi : v ≠ i := by omega
    rw [stepOn_visited_ne g i st hP v hvi]
    have hnb : v ∉ g.neighbours i := fun hmem => absurd (hwf i hin v hmem) (by omega)
    rw [if_neg (fun hc => hnb hc.2)]
    exact hinv.range_only v hv
  case sum_eq =>
    rw [stepOn_sum g i st hP, hinv.sum_eq, wrap32_add_left, doneSum_stepOn g i st hP hin]
  case done_succ =>
    intro v hv hd u hu
    by_cases hvi : v = i
    · rw [hvi] at hu
      by_cases hui : u = i
      · rw [hui, stepOn_visited_self g i st hP]
        simp
      · rw [stepOn_visited_ne g i st hP u hui]
        by_cases hc : st.visited u = Visit.NOT_VISITED ∧ u ∈ g.neighbours i
        · rw [if_pos hc]
          simp
        · rw [if_neg hc]
          intro hnv
          exact hc ⟨hnv, hu⟩
    · rw [stepOn_visited_ne g i st hP v hvi] at hd
      have hdold : st.visited v = Visit.DONE := by
        by_cases hc : st.visited v = Visit.NOT_VISITED ∧ v ∈ g.neighbours i
        · rw [if_pos hc] at hd
          exact absurd hd (by simp)
        · rwa [if_neg hc] at hd
      have hold := hinv.done_succ v hv hdold u hu
      by_cases hui : u = i
      · subst hui
        rw [stepOn_visited_self g u st hP]
        simp
      · rw [stepOn_visited_ne g i st hP u hui]
        by_cases hc : st.visited u = Visit.NOT_VISITED ∧ u ∈ g.neighbours i
        · rw [if_pos hc]
          simp
        · rw [if_neg hc]
          exact hold
  case reach =>
    intro v hv
    by_cases hvi : v = i
    · subst hvi
      exact hinv.reach v (by rw [hP]; simp)
    · rw [stepOn_visited_ne g i st hP v hvi] at hv
      by_cases hc : st.visited v = Visit.NOT_VISITED ∧ v ∈ g.neighbours i
      · exact Reach.step (hinv.reach i (by rw [hP]; simp)) hc.2
      · rw [if_neg hc] at hv
        exact hinv.reach v hv
  case seed_claimed =>
    by_cases h0 : (0 : Nat) = i
    · rw [← h0] at hP ⊢
      rw [stepOn_visited_self g 0 st (by rw [hP])]
      simp
    · rw [stepOn_visited_ne g i st hP 0 h0]
      by_cases hc : st.visited 0 = Visit.NOT_VISITED ∧ 0 ∈ g.neighbours i
      · rw [if_pos hc]
        simp
      · rw [if_neg hc]
        exact hinv.seed_claimed
  case hist_iff =>
    intro j
    rw [stepOn_history g i st hP, List.mem_append, hinv.hist_iff j, hncmem j]
    by_cases hj : j = i
    · subst hj
      rw [stepOn_visited_self g j st hP, hP]
      simp
    · rw [stepOn_visited_ne g i st hP j hj]
      by_cases hc : st.visited j = Visit.NOT_VISITED ∧ j ∈ g.neighbours i
      · rw [if_pos hc]
        simp [hj, hc.1, hc.2]
      · rw [if_neg hc]
        constructor
        · rintro (h | h)
          · exact h
          · exact absurd ⟨h.2.1, h.2.2⟩ hc
        · exact Or.inl
  case hist_nodup =>
    rw [stepOn_history g i st hP]
    refine List.Nodup.append hinv.hist_nodup hncnd ?_
    intro a ha hb
    have h1 : st.visited a ≠ Visit.NOT_VISITED := (hinv.hist_iff a).1 ha
    exact h1 ((hncmem a).1 hb).2.1
  case created_eq =>
    rw [stepOn_history g i st hP, stepOn_queue g i st hP, stepOn_destroyed]
    rw [List.length_append, List.length_append, List.length_erase_of_mem hi]
    have hlen : 1 ≤ st.queue.length := List.length_pos.2 (List.ne_nil_of_mem hi)
    have := hinv.created_eq
    omega
  case added_eq =>
    rw [stepOn_tasks_added g i st hP, stepOn_history g i st hP, List.length_append]
    rw [hinv.added_eq]

theorem inv_steps (g : Graph) (hwf : g.WF) (hn : 0 < g.n) (st : SysState)
    (htr : Steps g seeded st) : Inv g st := by
  induction htr with
  | refl => exact inv_seeded g hn
  | tail _ hstep ih => exact inv_step g hwf _ _ ih hstep

/-! ## The computable reachable set agrees with inductive reachability -/

theorem subset_reachStep (g : Graph) (s : Finset Nat) : s ⊆ reachStep g s :=
  Finset.subset_union_left

theorem reachStep_subset_range (g : Graph) (hwf : g.WF) (s : Finset Nat)
    (hs : s ⊆ Finset.range g.n) : reachStep g s ⊆ Finset.range g.n := by
  intro v hv
  rcases Finset.mem_union.1 hv with h | h
  · exact hs h
  · rcases Finset.mem_biUnion.1 h with ⟨u, hu, hvu⟩
    have hun : u < g.n := Finset.mem_range.1 (hs hu)
    exact Finset.mem_range.2 (hwf u hun v (List.mem_toFinset.1 hvu))

theorem iterate_reachStep_subset_range (g : Graph) (hwf : g.WF) (hn : 0 < g.n) (k : Nat) :
    (reachStep g)^[k] {0} ⊆ Finset.range g.n := by
  induction k with
  | zero =>
    intro v hv
    simp only [Function.iterate_zero_apply, Finset.mem_singleton] at hv
    subst hv
    exact Finset.mem_range.2 hn
  | succ k ih =>
    rw [Function.iterate_succ_apply']
    exact reachStep_subset_range g hwf _ ih

theorem subset_iterate_reachStep (g : Graph) (s : Finset Nat) (k : Nat) :
    s ⊆ (reachStep g)^[k] s := by
  induction k with
  | zero => simp
  | succ k ih =>
    rw [Function.iterate_succ_apply']
    exact ih.trans (subset_reachStep g _)

theorem reachSet_fixed (g : Graph) (hwf : g.WF) (hn : 0 < g.n) :
    reachStep g (reachSet g) = reachSet g := by
  have key : ∀ k : Nat,
      (∃ j, j < k ∧ reachStep g ((reachStep g)^[j] {0}) = (reachStep g)^[j] {0}) ∨
        k + 1 ≤ ((reachStep g)^[k] ({0} : Finset Nat)).card := by
    intro k
    induction k with
    | zero =>
      right
      simp
    | succ k ih =>
      rcases ih with ⟨j, hj, hfix⟩ | hcard
      · exact Or.inl ⟨j, by omega, hfix⟩
      · by_cases hfix : reachStep g ((reachStep g)^[k] {0}) = (reachStep g)^[k] {0}
        · exact Or.inl ⟨k, by omega, hfix⟩
        · right
          have hsub : (reachStep g)^[k] ({0} : Finset Nat) ⊆ (reachStep g)^[k + 1] {0} := by
            rw [Function.iterate_succ_apply']
            exact subset_reachStep g _
          have hssub : (reachStep g)^[k] ({0} : Finset Nat) ⊂ (reachStep g)^[k + 1] {0} := by
            refine Finset.ssubset_iff_subset_ne.2 ⟨hsub, fun heq => hfix ?_⟩
            rw [Function.iterate_succ_apply'] at heq
            exact heq.symm
          have := Finset.card_lt_card hssub
          omega
  rcases key g.n with ⟨j, hj, hfix⟩ | hcard
  · have hsplit : (reachStep g)^[g.n] ({0} : Finset Nat) = (reachStep g)^[j] {0} := by
      have hnj : g.n = (g.n - j) + j := by omega
      rw [hnj, Function.iterate_add_apply]
      exact Function.iterate_fixed hfix (g.n - j)
    unfold reachSet
    rw [hsplit]
    exact hfix
  · exfalso
    have hsub := iterate_reachStep_subset_range g hwf hn g.n
    have := Finset.card_le_card hsub
    rw [Finset.card_range] at this
    omega

theorem reach_of_mem_reachSet (g : Graph) (v : Nat) (hv : v ∈ reachSet g) :
    Reach g 0 v := by
  suffices h : ∀ k w, w ∈ (reachStep g)^[k] ({0} : Finset Nat) → Reach g 0 w from
    h g.n v hv
  intro k
  induction k with
  | zero =>
    intro w hw
    simp only [Function.iterate_zero_apply, Finset.mem_singleton] at hw
    subst hw
    exact Reach.refl
  | succ k ih =>
    intro w hw
    rw [Function.iterate_succ_apply'] at hw
    rcases Finset.mem_union.1 hw with h | h
    · exact ih w h
    · rcases Finset.mem_biUnion.1 h with ⟨u, hu, hwu⟩
      exact Reach.step (ih u hu) (List.mem_toFinset.1 hwu)

theorem mem_reachSet_of_reach (g : Graph) (hwf : g.WF) (hn : 0 < g.n) (v : Nat)
    (hv : Reach g 0 v) : v ∈ reachSet g := by
  induction hv with
  | refl => exact subset_iterate_reachStep g {0} g.n (Finset.mem_singleton_self 0)
  | step hu hnb ih =>
    rw [← reachSet_fixed g hwf hn]
    exact Finset.mem_union.2 (Or.inr (Finset.mem_biUnion.2 ⟨_, ih, List.mem_toFinset.2 hnb⟩))

theorem reach_lt (g : Graph) (hwf : g.WF) (hn : 0 < g.n) (v : Nat) (hv : Reach g 0 v) :
    v < g.n := by
  induction hv with
  | refl => exact hn
  | step hu hnb ih => exact hwf _ ih _ hnb

/-! ## The terminal state -/

theorem terminal_done_iff (g : Graph) (hwf : g.WF) (hn : 0 < g.n) (st : SysState)
    (hinv : Inv g st) (hq : st.queue = []) (v : Nat) :
    st.visited v = Visit.DONE ↔ Reach g 0 v := by
  have hnoP : ∀ w, st.visited w ≠ Visit.PROCESSING := by
    intro w hw
    have := (hinv.processing_iff w).1 hw
    rw [hq] at this
    simp at this
  constructor
  · intro hd
    exact hinv.reach v (by rw [hd]; simp)
  · intro hr
    induction hr with
    | refl =>
      have h1 := hinv.seed_claimed
      have h2 := hnoP 0
      cases h : st.visited 0 <;> simp_all
    | @step u w hu hnb ih =>
      have hun : u < g.n := reach_lt g hwf hn u hu
      have hw := hinv.done_succ u hun ih w hnb
      have h2 := hnoP w
      cases h : st.visited w <;> simp_all

theorem terminal_done_filter (g : Graph) (hwf : g.WF) (hn : 0 < g.n) (st : SysState)
    (hinv : Inv g st) (hq : st.queue = []) :
    ((Finset.range g.n).filter fun v => st.visited v = Visit.DONE) = reachSet g := by
  ext v
  simp only [Finset.mem_filter, Finset.mem_range]
  constructor
  · rintro ⟨_, hd⟩
    exact mem_reachSet_of_reach g hwf hn v ((terminal_done_iff g hwf hn st hinv hq v).1 hd)
  · intro hv
    have hr := reach_of_mem_reachSet g v hv
    exact ⟨reach_lt g hwf hn v hr, (terminal_done_iff g hwf hn st hinv hq v).2 hr⟩

/-- C1: for any well-formed finite graph, once the driver has seeded the
traversal at node 0 and the run has drained the queue (which is when
`wait_for_completion` returns, for any worker count — the transition
relation quantifies over every scheduling of pending tasks), the final
accumulator equals the (32-bit) sum of the weights of all nodes
reachable from the start node, each node's weight counted exactly
once. -/
theorem exactly_once_accumulation (g : Graph) (hwf : g.WF) (hn : 0 < g.n)
    (st : SysState) (htr : Steps g seeded st) (hq : st.queue = []) :
    st.sum = wrap32 ((reachSet g).sum g.info) ∧
    (-2 ^ 31 ≤ (reachSet g).sum g.info → (reachSet g).sum g.info < 2 ^ 31 →
      st.sum = (reachSet g).sum g.info) := by
  have hinv := inv_steps g hwf hn st htr
  have hw : st.sum = wrap32 ((reachSet g).sum g.info) := by
    rw [hinv.sum_eq]
    unfold doneSum
    rw [terminal_done_filter g hwf hn st hinv hq]
  exact ⟨hw, fun h1 h2 => by rw [hw, wrap32_eq_self _ h1 h2]⟩

theorem cycleGraph_wf : cycleGraph.WF := by
  intro i hi j hj
  have hn : cycleGraph.n = 2 := rfl
  rw [hn] at hi ⊢
  interval_cases i <;> simp [cycleGraph] at hj <;> omega

/-- C1 witness: the two-node cycle, scheduled A then B, reaches the
drained queue with the accumulator equal to the wrapped reachable-weight
sum. -/
theorem exactly_once_accumulation_witness :
    (stepOn cycleGraph 1 (stepOn cycleGraph 0 seeded)).sum =
      (reachSet cycleGraph).sum cycleGraph.info :=
  (exactly_once_accumulation cycleGraph cycleGraph_wf (by decide)
    (stepOn cycleGraph 1 (stepOn cycleGraph 0 seeded))
    ((Relation.ReflTransGen.refl.tail (Step.exec 0 seeded (by decide))).tail
      (Step.exec 1 (stepOn cycleGraph 0 seeded) (by decide)))
    (by decide)).2 (by decide) (by decide)

/-- C6: when the task action `execute` runs on a node whose status is
not `PROCESSING` (i.e. `NOT_VISITED` or `DONE`), it changes nothing: the
accumulator, every node's visitation status and the task queue are left
exactly as they were. -/
theorem execute_frame (g : Graph) (idx : Nat) (st : SysState)
    (h : st.visited idx ≠ Visit.PROCESSING) : execute g idx st = st := by
  simp [execute, h]

/-- C6 witness: `execute` on an all-`DONE` state is the identity. -/
theorem execute_frame_witness : execute cycleGraph 0 allDoneState = allDoneState :=
  execute_frame cycleGraph 0 allDoneState (by decide)

/-- C9: `process_node` claims its node unconditionally — for every
state and index it sets the status to `PROCESSING` and enqueues a task,
without checking that the node is `NOT_VISITED`; consequently executing
the freshly seeded task always adds the node's weight to the
accumulator again, whatever the previous status was. -/
theorem process_node_unconditional (g : Graph) (idx : Nat) (st : SysState) :
    (process_node idx st).visited idx = Visit.PROCESSING ∧
    (process_node idx st).queue = st.queue ++ [idx] ∧
    (process_node idx st).history = st.history ++ [idx] ∧
    (execute g idx (process_node idx st)).sum = wrap32 (st.sum + g.info idx) := by
  have hP : (process_node idx st).visited idx = Visit.PROCESSING := by
    simp [process_node, enqueueNode, Function.update_same]
  refine ⟨hP, rfl, rfl, ?_⟩
  simp [execute, hP, claimNeighbours_sum, process_node, enqueueNode]

/-- C10: the accumulator is a 32-bit machine integer: `execute` adds
with two's-complement wrap-around, the wrapped value is congruent to the
unbounded sum modulo 2^32 and lies in the `int` range, and on a graph
whose reachable total 2^31 exceeds `INT_MAX` the final printed value is
the wrapped `-2^31`, not the mathematical sum. -/
theorem int_wrap_accumulator (g : Graph) (idx : Nat) (st : SysState) :
    (execute g idx st).sum =
      (if st.visited idx = Visit.PROCESSING then wrap32 (st.sum + g.info idx) else st.sum) ∧
    (∀ x : Int, wrap32 x % 2 ^ 32 = x % 2 ^ 32) ∧
    (∀ x : Int, -2 ^ 31 ≤ wrap32 x ∧ wrap32 x < 2 ^ 31) ∧
    (runPool ovGraph 2 seeded).queue = [] ∧
    (runPool ovGraph 2 seeded).sum = -2 ^ 31 ∧
    ovGraph.info 0 + ovGraph.info 1 = 2 ^ 31 ∧
    (runPool ovGraph 2 seeded).sum ≠ ovGraph.info 0 + ovGraph.info 1 := by
  refine ⟨?_, wrap32_emod, wrap32_bounds, by decide, by decide, by decide, by decide⟩
  by_cases h : st.visited idx = Visit.PROCESSING
  · rw [if_pos h]
    simp [execute, h, claimNeighbours_sum]
  · rw [if_neg h]
    simp [execute, h]

/-! ## Queue-level lemmas -/

theorem dequeue_task_fst {α : Type} (p : TPool.Pool α) :
    (TPool.dequeue_task p).1 = p.queue.head? := by
  cases h : p.queue <;> simp [TPool.dequeue_task, TPool.list_remove_head, h]

theorem dequeueState_queue {α : Type} (p : TPool.Pool α) :
    (TPool.dequeueState p).queue = p.queue.tail := by
  cases h : p.queue <;>
    simp [TPool.dequeueState, TPool.dequeue_task, TPool.list_remove_head, h]

theorem dequeueState_iterate_queue {α : Type} (p : TPool.Pool α) (k : Nat) :
    ((TPool.dequeueState)^[k] p).queue = p.queue.drop k := by
  induction k generalizing p with
  | zero => simp
  | succ k ih =>
    rw [Function.iterate_succ_apply, ih, dequeueState_queue, ← List.drop_one,
      List.drop_drop]
    rw [Nat.add_comm]

theorem dequeuedAt_eq {α : Type} (p : TPool.Pool α) (k : Nat) :
    TPool.dequeuedAt p k = (p.queue.drop k).head? := by
  rw [TPool.dequeuedAt, dequeue_task_fst, dequeueState_iterate_queue]

/-- C3: the wait loop of `dequeue_task` blocks exactly while the queue
is empty and `tasks_added` is still zero; past the loop, a non-empty
queue yields its head task (removed), and an empty queue (whatever the
counter's value) yields NULL at once with the pool unchanged. -/
theorem dequeue_task_spec {α : Type} (p : TPool.Pool α) :
    (TPool.dequeue_wait_cond p = true ↔ p.queue = [] ∧ p.tasks_added = 0) ∧
    (∀ t rest, p.queue = t :: rest →
      TPool.dequeue_task p = (some t, { p with queue := rest })) ∧
    (p.queue = [] → TPool.dequeue_task p = (none, p)) := by
  obtain ⟨q, c⟩ := p
  refine ⟨?_, ?_, ?_⟩
  · simp [TPool.dequeue_wait_cond]
  · intro t rest h
    simp only at h
    subst h
    simp [TPool.dequeue_task, TPool.list_remove_head]
  · intro h
    simp only at h
    subst h
    simp [TPool.dequeue_task, TPool.list_remove_head]

/-- C3 witness: a concrete non-empty dequeue and a concrete
empty-but-nonzero-counter dequeue. -/
theorem dequeue_task_spec_witness :
    TPool.dequeue_task (⟨[3, 4], 2⟩ : TPool.Pool Nat) = (some 3, ⟨[4], 2⟩) ∧
    TPool.dequeue_task (⟨[], 5⟩ : TPool.Pool Nat) = (none, ⟨[], 5⟩) :=
  ⟨(dequeue_task_spec (⟨[3, 4], 2⟩ : TPool.Pool Nat)).2.1 3 [4] rfl,
    (dequeue_task_spec (⟨[], 5⟩ : TPool.Pool Nat)).2.2 rfl⟩

/-- C5: the queue is FIFO — `enqueue_task` appends at the tail and
`dequeue_task` removes the head, so if task `a` is enqueued strictly
before task `b` with no intervening dequeue, a single consumer dequeues
`a` (at dequeue number `|queue|`) strictly before `b` (at dequeue number
`|queue| + 1`). -/
theorem fifo_order {α : Type} (p : TPool.Pool α) (a b : α) :
    (TPool.enqueue_task p a).queue = p.queue ++ [a] ∧
    (TPool.enqueue_task (TPool.enqueue_task p a) b).queue = p.queue ++ [a, b] ∧
    TPool.dequeuedAt (TPool.enqueue_task (TPool.enqueue_task p a) b)
      p.queue.length = some a ∧
    TPool.dequeuedAt (TPool.enqueue_task (TPool.enqueue_task p a) b)
      (p.queue.length + 1) = some b := by
  have hq2 : (TPool.enqueue_task (TPool.enqueue_task p a) b).queue =
      p.queue ++ [a, b] := by
    simp [TPool.enqueue_task, TPool.list_add_tail]
  refine ⟨rfl, hq2, ?_, ?_⟩
  · rw [dequeuedAt_eq, hq2, List.drop_left]
    rfl
  · rw [dequeuedAt_eq, hq2]
    have hsplit : p.queue ++ [a, b] = (p.queue ++ [a]) ++ [b] := by
      simp
    have hlen : p.queue.length + 1 = (p.queue ++ [a]).length := by
      simp
    rw [hsplit, hlen, List.drop_left]
    rfl

/-- C5 witness: a concrete two-enqueue, two-dequeue FIFO run. -/
theorem fifo_order_witness :
    TPool.dequeuedAt (TPool.enqueue_task (TPool.enqueue_task (⟨[9], 1⟩ : TPool.Pool Nat) 7) 8)
      1 = some 7 ∧
    TPool.dequeuedAt (TPool.enqueue_task (TPool.enqueue_task (⟨[9], 1⟩ : TPool.Pool Nat) 7) 8)
      2 = some 8 :=
  ⟨(fifo_order (⟨[9], 1⟩ : TPool.Pool Nat) 7 8).2.2.1,
    (fifo_order (⟨[9], 1⟩ : TPool.Pool Nat) 7 8).2.2.2⟩

/-- C2: along any run from the seeded initial state, each worker turn
moves every node's status at most one step along
NOT_VISITED → PROCESSING → DONE (never backwards, never skipping), the
accumulator always equals the wrapped sum of the `DONE` weights (each
node's weight received exactly once, upon its single
PROCESSING → DONE transition), the ghost log of enqueued nodes never
repeats a node, and exactly the nodes transitioning
NOT_VISITED → PROCESSING in this turn get a task created and enqueued
(under the graph lock). -/
theorem visit_transitions (g : Graph) (hwf : g.WF) (hn : 0 < g.n) (st st' : SysState)
    (htr : Steps g seeded st) (hstep : Step g st st') :
    (∀ v, st'.visited v = st.visited v ∨
      (st.visited v = Visit.NOT_VISITED ∧ st'.visited v = Visit.PROCESSING) ∨
      (st.visited v = Visit.PROCESSING ∧ st'.visited v = Visit.DONE)) ∧
    st'.sum = wrap32 (doneSum g st') ∧
    st'.history.Nodup ∧
    (∃ l, st'.history = st.history ++ l ∧
      ∀ v, v ∈ l ↔ st.visited v = Visit.NOT_VISITED ∧
        st'.visited v = Visit.PROCESSING) := by
  have hinv := inv_steps g hwf hn st htr
  have hinv' := inv_step g hwf st st' hinv hstep
  rcases hstep with ⟨i, st, hi⟩
  have hP := (hinv.processing_iff i).2 hi
  refine ⟨?_, hinv'.sum_eq, hinv'.hist_nodup, ?_⟩
  · intro v
    by_cases hvi : v = i
    · subst hvi
      exact Or.inr (Or.inr ⟨hP, stepOn_visited_self g v st hP⟩)
    · rw [stepOn_visited_ne g i st hP v hvi]
      by_cases hc : st.visited v = Visit.NOT_VISITED ∧ v ∈ g.neighbours i
      · rw [if_pos hc]
        exact Or.inr (Or.inl ⟨hc.1, rfl⟩)
      · rw [if_neg hc]
        exact Or.inl rfl
  · refine ⟨newClaims (Function.update st.visited i Visit.DONE) (g.neighbours i),
      stepOn_history g i st hP, ?_⟩
    intro v
    rw [mem_stepClaims]
    constructor
    · rintro ⟨hne, hnv, hnb⟩
      refine ⟨hnv, ?_⟩
      rw [stepOn_visited_ne g i st hP v hne, if_pos ⟨hnv, hnb⟩]
    · rintro ⟨hnv, hp⟩
      have hne : v ≠ i := by
        rintro rfl
        rw [hP] at hnv
        exact absurd hnv (by simp)
      rw [stepOn_visited_ne g i st hP v hne] at hp
      by_cases hc : st.visited v = Visit.NOT_VISITED ∧ v ∈ g.neighbours i
      · exact ⟨hne, hnv, hc.2⟩
      · rw [if_neg hc] at hp
        rw [hnv] at hp
        exact absurd hp (by simp)

/-- C2 witness: the first worker turn of the cycle run. -/
theorem visit_transitions_witness :
    (stepOn cycleGraph 0 seeded).sum = wrap32 (doneSum cycleGraph (stepOn cycleGraph 0 seeded)) ∧
    (stepOn cycleGraph 0 seeded).history.Nodup :=
  ⟨(visit_transitions cycleGraph cycleGraph_wf (by decide) seeded _
      Relation.ReflTransGen.refl (Step.exec 0 seeded (by decide))).2.1,
    (visit_transitions cycleGraph cycleGraph_wf (by decide) seeded _
      Relation.ReflTransGen.refl (Step.exec 0 seeded (by decide))).2.2.1⟩

theorem sum_map_destroy_task {α : Type} (hasD : α → Bool) (l : List α) :
    (l.map (TPool.destroy_task hasD)).sum = l.countP hasD := by
  induction l with
  | nil => simp
  | cons t l ih =>
    rw [List.map_cons, List.sum_cons, List.countP_cons, ih]
    unfold TPool.destroy_task
    by_cases h : hasD t
    · simp [h]
      omega
    · simp [h]

/-- C7: destroying the pool drains and frees every task still resident
in the queue (assuming nothing about it being empty), invoking the
argument destructor of each remaining task that has one, and over a
whole traversal run the destructor invocations of the workers plus
those of teardown equal the number of task creations (every traversal
task carries the `free` destructor). -/
theorem destroy_teardown (g : Graph) (hwf : g.WF) (hn : 0 < g.n) (st : SysState)
    (htr : Steps g seeded st) :
    (destroyPool st).1.queue = [] ∧
    (destroyPool st).2 = st.queue.length ∧
    (∀ (α : Type) (hasD : α → Bool) (p : TPool.Pool α),
      (TPool.destroy_threadpool hasD p).1.queue = [] ∧
      (TPool.destroy_threadpool hasD p).2 = p.queue.countP hasD) ∧
    st.destroyed + (destroyPool st).2 = st.history.length := by
  have hinv := inv_steps g hwf hn st htr
  refine ⟨rfl, rfl, ?_, ?_⟩
  · intro α hasD p
    exact ⟨rfl, sum_map_destroy_task hasD p.queue⟩
  · have hc := hinv.created_eq
    unfold destroyPool
    omega

/-- C7 witness: teardown right after seeding frees the one queued task,
matching the one creation. -/
theorem destroy_teardown_witness :
    (destroyPool seeded).2 = seeded.queue.length ∧
    seeded.destroyed + (destroyPool seeded).2 = seeded.history.length :=
  ⟨(destroy_teardown cycleGraph cycleGraph_wf (by decide) seeded
      Relation.ReflTransGen.refl).2.1,
    (destroy_teardown cycleGraph cycleGraph_wf (by decide) seeded
      Relation.ReflTransGen.refl).2.2.2⟩

/-! ## Termination -/

theorem countNV_stepOn (g : Graph) (hwf : g.WF) (i : Nat) (st : SysState)
    (hP : st.visited i = Visit.PROCESSING) (hin : i < g.n) :
    countNV g (stepOn g i st) +
      (newClaims (Function.update st.visited i Visit.DONE) (g.neighbours i)).length =
      countNV g st := by
  have hncmem := mem_stepClaims g i st
  have hncnd := newClaims_nodup (Function.update st.visited i Visit.DONE) (g.neighbours i)
  have hsub : (newClaims (Function.update st.visited i Visit.DONE)
      (g.neighbours i)).toFinset ⊆
      (Finset.range g.n).filter fun v => st.visited v = Visit.NOT_VISITED := by
    intro v hv
    rw [List.mem_toFinset] at hv
    rcases (hncmem v).1 hv with ⟨_, hnv, hnb⟩
    exact Finset.mem_filter.2 ⟨Finset.mem_range.2 (hwf i hin v hnb), hnv⟩
  have hfil : (Finset.range g.n).filter
        (fun v => (stepOn g i st).visited v = Visit.NOT_VISITED) =
      ((Finset.range g.n).filter fun v => st.visited v = Visit.NOT_VISITED) \
        (newClaims (Function.update st.visited i Visit.DONE)
          (g.neighbours i)).toFinset := by
    ext v
    simp only [Finset.mem_sdiff, Finset.mem_filter, Finset.mem_range, List.mem_toFinset,
      hncmem]
    by_cases hvi : v = i
    · subst hvi
      rw [stepOn_visited_self g v st hP]
      simp [hP]
    · rw [stepOn_visited_ne g i st hP v hvi]
      by_cases hc : st.visited v = Visit.NOT_VISITED ∧ v ∈ g.neighbours i
      · rw [if_pos hc]
        constructor
        · rintro ⟨_, h⟩
          exact absurd h (by simp)
        · rintro ⟨_, hno⟩
          exact absurd ⟨hvi, hc.1, hc.2⟩ hno
      · rw [if_neg hc]
        constructor
        · rintro ⟨hr, hnv⟩
          exact ⟨⟨hr, hnv⟩, fun h => hc ⟨h.2.1, h.2.2⟩⟩
        · rintro ⟨h, _⟩
          exact h
  unfold countNV
  rw [hfil, Finset.card_sdiff hsub, List.toFinset_card_of_nodup hncnd]
  have := Finset.card_le_card hsub
  rw [List.toFinset_card_of_nodup hncnd] at this
  omega

theorem measure_step (g : Graph) (hwf : g.WF) (st st' : SysState) (hinv : Inv g st)
    (hstep : Step g st st') : measure g st' < measure g st := by
  rcases hstep with ⟨i, st, hi⟩
  have hP := (hinv.processing_iff i).2 hi
  have hin := hinv.queue_range i hi
  have hq := stepOn_queue g i st hP
  have hcnt := countNV_stepOn g hwf i st hP hin
  have hlen1 : 1 ≤ st.queue.length := List.length_pos.2 (List.ne_nil_of_mem hi)
  have hel : (st.queue.erase i).length = st.queue.length - 1 :=
    List.length_erase_of_mem hi
  unfold measure
  rw [hq, List.length_append, hel]
  omega

theorem history_bound (g : Graph) (st : SysState) (hinv : Inv g st) :
    st.history.length ≤ g.n := by
  have hnd := hinv.hist_nodup
  have hsub : st.history.toFinset ⊆ Finset.range g.n := by
    intro v hv
    rw [List.mem_toFinset] at hv
    have h1 := (hinv.hist_iff v).1 hv
    refine Finset.mem_range.2 ?_
    by_contra hge
    exact h1 (hinv.range_only v (by omega))
  calc st.history.length = st.history.toFinset.card :=
        (List.toFinset_card_of_nodup hnd).symm
    _ ≤ (Finset.range g.n).card := Finset.card_le_card hsub
    _ = g.n := Finset.card_range g.n

theorem runPool_drains (g : Graph) (hwf : g.WF) (fuel : Nat) :
    ∀ st, Inv g st → measure g st ≤ fuel → (runPool g fuel st).queue = [] := by
  induction fuel with
  | zero =>
    intro st _ hm
    have hlen : st.queue.length = 0 := by
      unfold measure at hm
      omega
    exact List.length_eq_zero.1 hlen
  | succ fuel ih =>
    intro st hinv hm
    cases hq : st.queue with
    | nil =>
      simp only [runPool, hq]
    | cons i rest =>
      have hi : i ∈ st.queue := by
        rw [hq]
        exact List.mem_cons_self i rest
      have hstep : Step g st (stepOn g i st) := Step.exec i st hi
      have hinv' := inv_step g hwf st _ hinv hstep
      have hlt := measure_step g hwf st _ hinv hstep
      have hred : runPool g (fuel + 1) st = runPool g fuel (stepOn g i st) := by
        simp only [runPool, hq]
      rw [hred]
      exact ih _ hinv' (by omega)

/-- C4: the traversal terminates on any finite well-formed graph, cycles
included: every worker turn strictly decreases the termination measure
(so no infinite run exists and `wait_for_completion` returns), at most
`g.n` tasks are ever created (no infinite re-enqueue around a cycle),
the single-worker scheduler drains the queue within `measure` turns from
any reachable state, and the concrete two-node cycle A↔B with weights 1
and 2 seeded at A ends with accumulator 3 after exactly two task
creations. -/
theorem traversal_terminates (g : Graph) (hwf : g.WF) (hn : 0 < g.n) (st : SysState)
    (htr : Steps g seeded st) :
    (∀ st', Step g st st' → measure g st' < measure g st) ∧
    st.history.length ≤ g.n ∧
    (runPool g (measure g st) st).queue = [] ∧
    (runPool cycleGraph 2 seeded).sum = 3 ∧
    (runPool cycleGraph 2 seeded).queue = [] ∧
    (runPool cycleGraph 2 seeded).history = [0, 1] := by
  have hinv := inv_steps g hwf hn st htr
  exact ⟨fun st' hstep => measure_step g hwf st st' hinv hstep,
    history_bound g st hinv,
    runPool_drains g hwf (measure g st) st hinv le_rfl,
    by decide, by decide, by decide⟩

/-- C4 witness: the cycle run drains and stops with accumulator 3. -/
theorem traversal_terminates_witness :
    (runPool cycleGraph (measure cycleGraph seeded) seeded).queue = [] ∧
    (runPool cycleGraph 2 seeded).sum = 3 :=
  ⟨(traversal_terminates cycleGraph cycleGraph_wf (by decide) seeded
      Relation.ReflTransGen.refl).2.2.1,
    (traversal_terminates cycleGraph cycleGraph_wf (by decide) seeded
      Relation.ReflTransGen.refl).2.2.2.1⟩

/-! ## Lock ordering -/

theorem qOnlyUnderG_replicate (k : Nat) (rest : List LockEv) :
    qOnlyUnderG ((List.replicate k enqueueLockTrace).flatten ++ rest) true =
      qOnlyUnderG rest true := by
  induction k with
  | zero => simp
  | succ k ih =>
    rw [List.replicate_succ, List.flatten_cons, List.append_assoc]
    simp only [enqueueLockTrace, List.cons_append, qOnlyUnderG, Bool.true_and]
    exact ih

theorem goodLockOrder_replicate (k : Nat) (rest : List LockEv) :
    goodLockOrder ((List.replicate k enqueueLockTrace).flatten ++ rest) true false =
      goodLockOrder rest true false := by
  induction k with
  | zero => simp
  | succ k ih =>
    rw [List.replicate_succ, List.flatten_cons, List.append_assoc]
    simp only [enqueueLockTrace, List.cons_append, qOnlyUnderG, goodLockOrder]
    exact ih

/-- C8: lock-ordering discipline.  In the only call chains that take
both mutexes (`execute` and `process_node`, whatever number of enqueues
`execute` performs), the graph mutex is acquired first and the pool
mutex is only ever acquired while the graph mutex is held (inside
`enqueue_task`); and no code path of the program — `execute`,
`process_node`, `enqueue_task`, `dequeue_task`, `wait_for_completion` —
ever acquires the graph mutex while holding the pool mutex, which rules
out deadlock between the two locks. -/
theorem lock_ordering (k : Nat) :
    qOnlyUnderG (executeLockTrace k) false = true ∧
    qOnlyUnderG processNodeLockTrace false = true ∧
    goodLockOrder (executeLockTrace k) false false = true ∧
    goodLockOrder processNodeLockTrace false false = true ∧
    goodLockOrder enqueueLockTrace false false = true ∧
    goodLockOrder dequeueLockTrace false false = true ∧
    goodLockOrder waitLockTrace false false = true := by
  refine ⟨?_, by decide, ?_, by decide, by decide, by decide, by decide⟩
  · unfold executeLockTrace
    simp only [qOnlyUnderG]
    rw [List.append_eq, qOnlyUnderG_replicate]
    decide
  · unfold executeLockTrace
    simp only [goodLockOrder, Bool.not_false, Bool.true_and]
    rw [List.append_eq, goodLockOrder_replicate]
    decide

end ParallelGraph
